import Mathlib

/-!
Verification of the collection compiler (tools/compile-collection.mjs and its
competency twin): a shallow embedding of the JSON data model, the record-store
scanner, the record validator and normalizer, the deterministic serializer,
the sorting comparators, and the write/check orchestrator, together with
theorems settling the specification's claims about them.

Modelling conventions, used throughout:
* JSON values are the mutual inductive `JVal`/`JArr`/`JObj`; an object is an
  ordered field list, mirroring JavaScript property insertion order.  A parsed
  JSON object never holds duplicate keys (`JSON.parse` keeps the last
  occurrence), and none of the keys of this domain are array-index-like, so
  plain insertion order models JavaScript property order.
* JavaScript numbers are IEEE doubles; the records of this domain carry only
  strings, arrays and objects, so `JVal.num` models the integer-valued case
  (`Int`) and float formatting is out of scope.
* `String.prototype.localeCompare` (used by both sort sites) is modelled for
  ASCII strings under the default (root/en-US) collation: a primary pass that
  ignores letter case, then a tie-break where lower case sorts before upper
  case.  This is the documented ICU behaviour for ASCII letters and digits;
  non-ASCII collation is out of scope.
* `Array.prototype.sort` is required by ES2019 to be stable; for a consistent
  comparator its result is the unique stably sorted permutation, modelled here
  by `List.insertionSort` on the comparator's non-strict order.
* `===` / `!==` on two values that originate from distinct `JSON.parse` calls
  (a record field versus the metadata identity) is value equality on
  primitives and reference inequality on objects and arrays; `jsStrictEq`
  models exactly that.
* `die` (print and `process.exit`) is modelled as an `Except Err` error: the
  process stops at the first failure and no later effect happens.  The
  filesystem is explicit: a directory tree `FSTree` carrying parsed file
  contents, and an artifact store `String → Option String`.  The unused
  `sha256` of the compiled text is not modelled; nothing consumes it.
-/

mutual
/-- A JSON value, as produced by `JSON.parse`. -/
inductive JVal where
  | null
  | bool (b : Bool)
  | num (n : Int)
  | str (s : String)
  | arr (elems : JArr)
  | obj (fields : JObj)
/-- The element list of a JSON array. -/
inductive JArr where
  | nil
  | cons (hd : JVal) (tl : JArr)
/-- The ordered field list of a JSON object (JavaScript property insertion order). -/
inductive JObj where
  | nil
  | cons (key : String) (val : JVal) (tl : JObj)
end

/-- JavaScript property lookup `obj[key]`: `none` is `undefined`.  Parsed JSON
objects have unique keys, so first match equals JavaScript's lookup. -/
def getProp : JObj → String → Option JVal
  | .nil, _ => none
  | .cons k v t, key => if k = key then some v else getProp t key

/-- The key list of an object, in property order. -/
def JObj.keys : JObj → List String
  | .nil => []
  | .cons k _ t => k :: JObj.keys t

/-- Concatenation of field lists (spread followed by extra properties). -/
def JObj.append : JObj → JObj → JObj
  | .nil, o => o
  | .cons k v t, o => .cons k v (JObj.append t o)

/-- Conversion of a Lean list of values to a JSON array. -/
def listToJArr : List JVal → JArr
  | [] => .nil
  | v :: t => .cons v (listToJArr t)

/-- JavaScript truthiness of a parsed JSON value (`undefined` is handled at the
`Option` layer by the callers). -/
def jsTruthy : JVal → Bool
  | .null => false
  | .bool b => b
  | .num n => if n = 0 then false else true
  | .str s => if s = "" then false else true
  | .arr _ => true
  | .obj _ => true

/-- JavaScript strict equality `===` between two values that come from distinct
`JSON.parse` invocations (here: a record field versus the collection metadata):
value equality on primitives; objects and arrays from different parses are
distinct references, hence never strictly equal. -/
def jsStrictEq : JVal → JVal → Bool
  | .null, .null => true
  | .bool a, .bool b => a == b
  | .num a, .num b => a == b
  | .str a, .str b => a == b
  | _, _ => false

/-- JavaScript `a || b` on possibly-undefined values (`skill.type || skill["@type"]`). -/
def jsOr (a b : Option JVal) : Option JVal :=
  match a with
  | some v => if jsTruthy v then some v else b
  | none => b

/-- ASCII uppercase test. -/
def isAsciiUpper (c : Char) : Bool := 'A' ≤ c && c ≤ 'Z'

/-- ASCII lowercasing of one character (`String.prototype.toLowerCase`, ASCII scope). -/
def asciiLower (c : Char) : Char :=
  if isAsciiUpper c then Char.ofNat (c.toNat + 32) else c

/-- `s.toLowerCase()` for ASCII strings. -/
def lowerStr (s : String) : String := String.mk (s.data.map asciiLower)

/-- Primary collation weight of a character: the code point with ASCII case folded. -/
def primaryVal (c : Char) : Nat :=
  if isAsciiUpper c then c.toNat + 32 else c.toNat

/-- Case weight of a character: lower case (and non-letters) before upper case. -/
def caseVal (c : Char) : Nat := if isAsciiUpper c then 1 else 0

/-- Primary collation key of a string. -/
def primaryKey (s : String) : List Nat := s.data.map primaryVal

/-- Case (tertiary) collation key of a string. -/
def caseKey (s : String) : List Nat := s.data.map caseVal

/-- Three-way comparison of naturals. -/
def natCmp (a b : Nat) : Ordering :=
  if a < b then .lt else if b < a then .gt else .eq

/-- Lexicographic comparison of lists under an element comparison. -/
def listCmp (cmp : α → α → Ordering) : List α → List α → Ordering
  | [], [] => .eq
  | [], _ :: _ => .lt
  | _ :: _, [] => .gt
  | a :: as, b :: bs =>
    match cmp a b with
    | .eq => listCmp cmp as bs
    | o => o

/-- Model of `a.localeCompare(b)` under the default collation, ASCII scope:
compare case-insensitively first (primary), break ties with lower case before
upper case (tertiary).  For example `"a".localeCompare("B") < 0` although
`"B" < "a"` in code units. -/
def localeCompare (a b : String) : Ordering :=
  (listCmp natCmp (primaryKey a) (primaryKey b)).then
    (listCmp natCmp (caseKey a) (caseKey b))

/-- Modelled from the spec: the "locale-independent lexicographic comparison
over the path string" that section 4.1 claims the scanner sorts by, i.e. plain
code-unit order.  The source instead sorts with `localeCompare`; this
definition exists to compare the two orders. -/
def lexCompare (a b : String) : Ordering :=
  listCmp natCmp (a.data.map Char.toNat) (b.data.map Char.toNat)

/-- Decimal digits of a natural number, most significant first. -/
def natChars (n : Nat) : List Char :=
  if _h : n < 10 then [Nat.digitChar n]
  else natChars (n / 10) ++ [Nat.digitChar (n % 10)]
decreasing_by exact Nat.div_lt_self (by omega) (by omega)

/-- JavaScript `String(n)` for an integer-valued number. -/
def intStr : Int → String
  | .ofNat n => String.mk (natChars n)
  | .negSucc n => "-" ++ String.mk (natChars (n + 1))

mutual
/-- JavaScript `String(v)` for a parsed JSON value: strings unchanged, numbers
in decimal, `true`/`false`/`null`, arrays joined by commas with `null`
elements blank, objects as `"[object Object]"`. -/
def jsToString : JVal → String
  | .null => "null"
  | .bool true => "true"
  | .bool false => "false"
  | .num n => intStr n
  | .str s => s
  | .arr es => jsArrJoin es
  | .obj _ => "[object Object]"
/-- `Array.prototype.toString`: elements joined by `","`, `null` rendered empty. -/
def jsArrJoin : JArr → String
  | .nil => ""
  | .cons e t =>
    let s := match e with
      | .null => ""
      | v => jsToString v
    match t with
    | .nil => s
    | .cons e' t' => s ++ "," ++ jsArrJoin (.cons e' t')
end

/-- JavaScript `String(x ?? "")`: `undefined` and `null` project to the empty
string, every other value to its string conversion. -/
def coalesceStr : Option JVal → String
  | none => ""
  | some .null => ""
  | some v => jsToString v

/-- Optional-chained property access `a?.[k]` (yields `undefined` off objects). -/
def getField : JVal → String → Option JVal
  | .obj fields, k => getProp fields k
  | _, _ => none

/-- The indentation for nesting depth `n` with the fixed two-space gap. -/
def sp (n : Nat) : String := String.mk (List.replicate (2 * n) ' ')

/-- JSON string escaping of one character, as `JSON.stringify` performs it. -/
def escChar (c : Char) : String :=
  if c = '"' then "\\\""
  else if c = '\\' then "\\\\"
  else if c = '\n' then "\\n"
  else if c = '\r' then "\\r"
  else if c = '\t' then "\\t"
  else if c = '\x08' then "\\b"
  else if c = '\x0c' then "\\f"
  else if c.toNat < 32 then
    "\\u00" ++ String.mk [Nat.digitChar (c.toNat / 16), Nat.digitChar (c.toNat % 16)]
  else String.mk [c]

/-- JSON rendering of a string literal, quotes included. -/
def escapeString (s : String) : String :=
  "\"" ++ String.join (s.data.map escChar) ++ "\""

mutual
/-- The body of `JSON.stringify(v, null, 2)`: two-space indentation, fields in
insertion order (no global key sorting), at nesting depth `d`. -/
def render : JVal → Nat → String
  | .null, _ => "null"
  | .bool true, _ => "true"
  | .bool false, _ => "false"
  | .num n, _ => intStr n
  | .str s, _ => escapeString s
  | .arr .nil, _ => "[]"
  | .arr (.cons e t), d =>
    ("[\n" ++ renderArrItems (.cons e t) (d + 1) ++ "\n" ++ sp d) ++ "]"
  | .obj .nil, _ => "\x7b\x7d"
  | .obj (.cons k v t), d =>
    ("\x7b\n" ++ renderObjItems (.cons k v t) (d + 1) ++ "\n" ++ sp d) ++ "\x7d"
/-- Array elements, one per line, comma separated. -/
def renderArrItems : JArr → Nat → String
  | .nil, _ => ""
  | .cons e .nil, d => sp d ++ render e d
  | .cons e (.cons e' t), d =>
    sp d ++ render e d ++ ",\n" ++ renderArrItems (.cons e' t) d
/-- Object members, one per line, comma separated, keys in insertion order. -/
def renderObjItems : JObj → Nat → String
  | .nil, _ => ""
  | .cons k v .nil, d => sp d ++ escapeString k ++ ": " ++ render v d
  | .cons k v (.cons k' v' t), d =>
    sp d ++ escapeString k ++ ": " ++ render v d ++ ",\n"
      ++ renderObjItems (.cons k' v' t) d
end

/-- The deterministic serializer `stableStringify`: `JSON.stringify(obj, null, 2) + "\n"`. -/
def stableStringify (v : JVal) : String := render v 0 ++ "\n"

mutual
/-- A directory entry: a file carrying its parsed JSON content, or a
subdirectory.  Unparseable files are out of scope (reading them dies just as
validation failures do). -/
inductive FSEntry where
  | file (name : String) (content : JVal)
  | dir (name : String) (entries : FSTree)
/-- The ordered entry list of one directory, in filesystem enumeration order. -/
inductive FSTree where
  | nil
  | cons (e : FSEntry) (t : FSTree)
end

/-- POSIX `path.join` for the simple names of this domain. -/
def pathJoin (dir name : String) : String := dir ++ "/" ++ name

/-- The record-file test: the lowercased name ends in `.json`. -/
def isJsonName (name : String) : Bool :=
  List.isSuffixOf ".json".data (lowerStr name).data

mutual
/-- The files `walk` pushes for one directory entry, in traversal order. -/
def entryFiles (current : String) : FSEntry → List (String × JVal)
  | .file name content =>
    if isJsonName name then [(pathJoin current name, content)] else []
  | .dir name entries => walkFiles (pathJoin current name) entries
/-- The recursive `walk` of `listJsonFiles`: depth first, entries in
enumeration order, collecting the matching files' paths and contents. -/
def walkFiles (current : String) : FSTree → List (String × JVal)
  | .nil => []
  | .cons e t => entryFiles current e ++ walkFiles current t
end

/-- Two trees that present the same directories and files, possibly enumerated
in a different order at each level (the permutations a filesystem is free to
apply to `readdir`). -/
inductive TreePerm : FSTree → FSTree → Prop where
  | nil : TreePerm .nil .nil
  | consFile (n : String) (c : JVal) {t₁ t₂ : FSTree} :
      TreePerm t₁ t₂ → TreePerm (.cons (.file n c) t₁) (.cons (.file n c) t₂)
  | consDir (n : String) {es₁ es₂ t₁ t₂ : FSTree} :
      TreePerm es₁ es₂ → TreePerm t₁ t₂ →
      TreePerm (.cons (.dir n es₁) t₁) (.cons (.dir n es₂) t₂)
  | swap (e₁ e₂ : FSEntry) (t : FSTree) :
      TreePerm (.cons e₁ (.cons e₂ t)) (.cons e₂ (.cons e₁ t))
  | trans {t₁ t₂ t₃ : FSTree} :
      TreePerm t₁ t₂ → TreePerm t₂ t₃ → TreePerm t₁ t₃

mutual
/-- A path that one entry contributes to the scan: a matching file's joined
path, or a path found inside a subdirectory. -/
inductive HasEntryJson : String → FSEntry → String → Prop where
  | file {current : String} {n : String} {c : JVal} :
      isJsonName n = true → HasEntryJson current (.file n c) (pathJoin current n)
  | dir {current : String} {n : String} {sub : FSTree} {p : String} :
      HasJsonFile (pathJoin current n) sub p → HasEntryJson current (.dir n sub) p
/-- The paths of the record files below a directory, across all nested
subdirectories (the set section 4.1 says the scanner enumerates). -/
inductive HasJsonFile : String → FSTree → String → Prop where
  | head {current : String} {e : FSEntry} {t : FSTree} {p : String} :
      HasEntryJson current e p → HasJsonFile current (.cons e t) p
  | tail {current : String} {e : FSEntry} {t : FSTree} {p : String} :
      HasJsonFile current t p → HasJsonFile current (.cons e t) p
end

/-- The error taxonomy of section 7, one constructor per `die` site these
claims touch, carrying the path or value the message interpolates. -/
inductive Err where
  | missingFile (path : String)
  | invalidMetadata (msg : String)
  | malformedRecord (path : String)
  | missingKeys (path : String) (which : String)
  | typeMismatch (path : String) (actual : JVal)
  | membershipMismatch (path : String) (actual expected : JVal)
  | missingDirectory (dir : String)
  | emptyCollection (dir : String)
  | invalidArgument (msg : String)
  | staleArtifact (msg : String)

/-- The non-strict order the path sort uses: `a.localeCompare(b) <= 0` on the
paths of two scanned files. -/
def pathLe (a b : String × JVal) : Prop := localeCompare a.1 b.1 ≠ Ordering.gt

instance : DecidableRel pathLe := fun a b =>
  inferInstanceAs (Decidable (localeCompare a.1 b.1 ≠ Ordering.gt))

/-- The scanner `listJsonFiles`: fails with `MissingDirectory` when the root
does not exist, walks the tree, sorts the hits by `localeCompare` on the path,
and fails with `EmptyCollection` when nothing matched.  The tree carries the
parsed contents, so the later `readJson` per path is fused into the result. -/
def listJsonFiles (dirPath : String) (tree : Option FSTree) :
    Except Err (List (String × JVal)) :=
  match tree with
  | none => .error (.missingDirectory dirPath)
  | some entries =>
    let results := (walkFiles dirPath entries).insertionSort pathLe
    if results.isEmpty then .error (.emptyCollection dirPath) else .ok results

/-- `readJson`: a missing file is fatal; the tree already holds parsed values. -/
def readJson (path : String) (content : Option JVal) : Except Err JVal :=
  match content with
  | none => .error (.missingFile path)
  | some v => .ok v

/-- The required metadata keys of `validateMeta`, in source order. -/
def requiredMetaKeys : List String :=
  ["@context", "id", "type", "name", "description", "author"]

/-- `validateMeta`: object shape, the six required keys, and the
`type === "Collection"` sentinel. -/
def validateMeta (meta : JVal) : Except Err Unit :=
  match meta with
  | .obj fields =>
    let missing := requiredMetaKeys.filter (fun k => (getProp fields k).isNone)
    if missing ≠ [] then
      .error (.invalidMetadata
        ("ERROR: collection.meta.json missing keys: " ++ String.intercalate ", " missing))
    else if jsStrictEq ((getProp fields "type").getD .null) (.str "Collection") then .ok ()
    else .error (.invalidMetadata "ERROR: collection.meta.json 'type' must be 'Collection'")
  | _ => .error (.invalidMetadata "ERROR: collection.meta.json must contain a JSON object")

/-- `validateSkill`: object shape, required `id`, a truthy `type` or `@type`
tag equal to `"RichSkillDescriptor"`, and, when `isMemberOf` is present,
strict equality with the collection identity. -/
def validateSkill (skill : JVal) (skillPath : String) (collectionId : JVal) :
    Except Err Unit :=
  match skill with
  | .obj fields =>
    if (getProp fields "id").isNone then .error (.missingKeys skillPath "id")
    else
      match jsOr (getProp fields "type") (getProp fields "@type") with
      | none => .error (.missingKeys skillPath "type or @type")
      | some tv =>
        if jsTruthy tv = false then .error (.missingKeys skillPath "type or @type")
        else if jsStrictEq tv (.str "RichSkillDescriptor") = false then
          .error (.typeMismatch skillPath tv)
        else
          match getProp fields "isMemberOf" with
          | some m =>
            if jsStrictEq m collectionId = false then
              .error (.membershipMismatch skillPath m collectionId)
            else .ok ()
          | none => .ok ()
  | _ => .error (.malformedRecord skillPath)

/-- `normalizeSkill` on the field list: a fresh value in which `isMemberOf`
defaults to the collection identity and then `author` to the collection
author, each only when absent; property assignment appends at the end. -/
def normalizeSkill (skill : JObj) (collectionId collectionAuthor : JVal) : JObj :=
  let s₁ :=
    if (getProp skill "isMemberOf").isSome then skill
    else JObj.append skill (.cons "isMemberOf" collectionId .nil)
  if (getProp s₁ "author").isSome then s₁
  else JObj.append s₁ (.cons "author" collectionAuthor .nil)

/-- `normalizeSkill` on a record value.  Validation admits only objects here;
the spread of the unreachable non-object cases is the empty object. -/
def normalizeRecord (data : JVal) (collectionId collectionAuthor : JVal) : JVal :=
  match data with
  | .obj fields => .obj (normalizeSkill fields collectionId collectionAuthor)
  | _ => .obj .nil

/-- `normalizeCompetency` (the Variant B normalizer): a spread copy with no
defaults, so an object record passes through unchanged. -/
def normalizeCompetency (competency : JVal) : JVal :=
  match competency with
  | .obj fields => .obj fields
  | _ => .obj .nil

/-- The `meta.id` read by `compile`; `validateMeta` guarantees presence, so the
`null` default never fires on a validated metadata value. -/
def metaId (meta : JVal) : JVal :=
  (getProp (match meta with | .obj fields => fields | _ => .nil) "id").getD .null

/-- The `meta.author` read by `compile`; present on every validated metadata. -/
def metaAuthor (meta : JVal) : JVal :=
  (getProp (match meta with | .obj fields => fields | _ => .nil) "author").getD .null

/-- The field list of a validated (hence object-shaped) metadata value. -/
def fieldsOf : JVal → JObj
  | .obj fields => fields
  | _ => .nil

/-- The identity `compile` would use, as a function of the metadata file. -/
def metaIdOf : Option JVal → JVal
  | some meta => metaId meta
  | none => .null

/-- The per-file map of `compile`: validate then normalize each record in
sorted path order, stopping at the first failure. -/
def compileRecords (collectionId collectionAuthor : JVal) :
    List (String × JVal) → Except Err (List JVal)
  | [] => .ok []
  | (fp, data) :: rest => do
    let _ ← validateSkill data fp collectionId
    let tail ← compileRecords collectionId collectionAuthor rest
    .ok (normalizeRecord data collectionId collectionAuthor :: tail)

/-- Key presence (`k` among the object's keys). -/
def hasKey (fields : JObj) (k : String) : Bool := (getProp fields k).isSome

/-- In-place value replacement for an existing key (position preserved). -/
def setField : JObj → String → JVal → JObj
  | .nil, _, _ => .nil
  | .cons k' v' t, k, v =>
    if k' = k then .cons k' v (setField t k v) else .cons k' v' (setField t k v)

/-- The object built by a spread followed by one property write,
`\x7b ...meta, skills \x7d`: an existing key is overwritten in place, a new
key is appended last. -/
def spreadSet (fields : JObj) (k : String) (v : JVal) : JObj :=
  if hasKey fields k then setField fields k v
  else JObj.append fields (.cons k v .nil)

/-- The compiled collection object: the metadata fields spread first, then the
`skills` array written. -/
def assembleCompiled (metaFields : JObj) (skills : List JVal) : JObj :=
  spreadSet metaFields "skills" (.arr (listToJArr skills))

/-- The sort key `String(a?.[sortBy] ?? "").toLowerCase()` of one record. -/
def skillKey (field : String) (a : JVal) : String :=
  lowerStr (coalesceStr (getField a field))

/-- The tie-break key `String(a?.id ?? "").toLowerCase()` of one record. -/
def idKey (a : JVal) : String := lowerStr (coalesceStr (getField a "id"))

/-- The record comparator of `compile`: the configured key case-insensitively,
ties broken by the lowercased primary identifier. -/
def cmpSkill (sortBy : String) (a b : JVal) : Ordering :=
  let aKey := skillKey sortBy a
  let bKey := skillKey sortBy b
  if aKey ≠ bKey then localeCompare aKey bKey
  else localeCompare (idKey a) (idKey b)

/-- The non-strict order induced by `cmpSkill` (comparator result not positive). -/
def skillLe (sortBy : String) (a b : JVal) : Prop :=
  cmpSkill sortBy a b ≠ Ordering.gt

instance (sortBy : String) : DecidableRel (skillLe sortBy) := fun a b =>
  inferInstanceAs (Decidable (cmpSkill sortBy a b ≠ Ordering.gt))

/-- The stable record sort of `compile` (`skills.sort(comparator)`). -/
def sortRecords (sortBy : String) (records : List JVal) : List JVal :=
  records.insertionSort (skillLe sortBy)

/-- The compiler core `compile`: read and validate metadata, scan, validate
and normalize every record, sort, assemble and serialize.  The computed
`sha256` of the text is unused by every caller and not modelled. -/
def compile (metaPath : String) (metaJson : Option JVal) (skillsDir : String)
    (tree : Option FSTree) (sortBy : String) : Except Err String := do
  let meta ← readJson metaPath metaJson
  let _ ← validateMeta meta
  let skillFiles ← listJsonFiles skillsDir tree
  let skills ← compileRecords (metaId meta) (metaAuthor meta) skillFiles
  .ok (stableStringify (.obj (assembleCompiled (fieldsOf meta) (sortRecords sortBy skills))))

/-- The world the orchestrator touches: the metadata file, the records
directory, and the artifact store (path to content, `none` when absent). -/
structure World where
  metaJson : Option JVal
  tree : Option FSTree
  artifactFS : String → Option String

/-- `readTextOrEmpty`: a missing file reads as empty content, never an error. -/
def readTextOrEmpty (fs : String → Option String) (filePath : String) : String :=
  (fs filePath).getD ""

/-- `writeText`: the artifact store after an unconditional overwrite. -/
def writeText (fs : String → Option String) (filePath text : String) :
    String → Option String :=
  fun p => if p = filePath then some text else fs p

/-- `main` in `--write` mode: compile (any failure exits before any write),
then overwrite the artifact.  The error case returns the world untouched. -/
def mainWrite (w : World) (metaPath skillsDir outPath sortBy : String) :
    World × Option Err :=
  match compile metaPath w.metaJson skillsDir w.tree sortBy with
  | .error e => (w, some e)
  | .ok newText =>
    ({ w with artifactFS := writeText w.artifactFS outPath newText }, none)

/-- The fixed staleness diagnostic `main` prints in `--check` mode (two
`console.error` calls, a newline after each). -/
def staleMessage : String :=
  "ERROR: skills-collection.json is out of date.\n\nRun:\n  node tools/compile-collection.mjs --write\n\n"

/-- `main` in `--check` mode: compile, read the existing artifact (missing
reads as empty), and compare byte for byte; a difference exits with the fixed
staleness message. -/
def mainCheck (w : World) (metaPath skillsDir outPath sortBy : String) :
    Except Err Unit :=
  match compile metaPath w.metaJson skillsDir w.tree sortBy with
  | .error e => .error e
  | .ok newText =>
    let oldText := readTextOrEmpty w.artifactFS outPath
    if oldText ≠ newText then .error (.staleArtifact staleMessage) else .ok ()

/-- The argument record of `parseArgs`; a field is `none` when a flag that
takes a value appeared last (`argv[++i]` read `undefined`), `mode` is `none`
until `--write` or `--check` appears. -/
structure Args where
  meta : Option String
  skillsDir : Option String
  out : Option String
  sortBy : Option String
  mode : Option String
deriving DecidableEq

/-- The outcome of `parseArgs`: parsed arguments, the `--help` exit, or a
fatal `die`. -/
inductive ParseResult where
  | ok (args : Args)
  | helpExit
  | err (e : Err)

/-- The defaults of `parseArgs` (paths relative to the repository root; path
resolution is not modelled). -/
def defaultArgs : Args :=
  { meta := some "collection.meta.json"
    skillsDir := some "skills"
    out := some "skills-collection.json"
    sortBy := some "id"
    mode := none }

/-- The argument loop of `parseArgs` over `argv` from index 2, followed by the
final mode and sort-key checks.  A value-taking flag consumes the next token;
`--write` and `--check` each overwrite `mode`, the last occurrence winning. -/
def parseLoop (args : Args) : List String → ParseResult
  | [] =>
    match args.mode with
    | none => .err (.invalidArgument "ERROR: Must specify exactly one of --write or --check")
    | some _ =>
      match args.sortBy with
      | some s =>
        if s = "id" ∨ s = "skillName" then .ok args
        else .err (.invalidArgument "ERROR: --sort-by must be \"id\" or \"skillName\"")
      | none => .err (.invalidArgument "ERROR: --sort-by must be \"id\" or \"skillName\"")
  | tok :: rest =>
    if tok = "--meta" then
      match rest with
      | v :: rest2 => parseLoop { args with meta := some v } rest2
      | [] => parseLoop { args with meta := none } []
    else if tok = "--skills-dir" then
      match rest with
      | v :: rest2 => parseLoop { args with skillsDir := some v } rest2
      | [] => parseLoop { args with skillsDir := none } []
    else if tok = "--out" then
      match rest with
      | v :: rest2 => parseLoop { args with out := some v } rest2
      | [] => parseLoop { args with out := none } []
    else if tok = "--sort-by" then
      match rest with
      | v :: rest2 => parseLoop { args with sortBy := some v } rest2
      | [] => parseLoop { args with sortBy := none } []
    else if tok = "--write" then parseLoop { args with mode := some "write" } rest
    else if tok = "--check" then parseLoop { args with mode := some "check" } rest
    else if tok = "--help" ∨ tok = "-h" then .helpExit
    else .err (.invalidArgument ("ERROR: Unknown argument: " ++ tok))

/-- `parseArgs` over the full `process.argv` (runtime, script, then the user
arguments). -/
def parseArgs (argv : List String) : ParseResult :=
  parseLoop defaultArgs (argv.drop 2)

/-- Fixture: collection metadata passing `validateMeta`. -/
def sampleMeta : JVal :=
  .obj (.cons "@context" (.str "https://schema.org/")
    (.cons "id" (.str "https://example.org/collections/pm")
      (.cons "type" (.str "Collection")
        (.cons "name" (.str "Project Management")
          (.cons "description" (.str "sample collection")
            (.cons "author" (.str "Western Governors University") .nil))))))

/-- Fixture: a valid skill record with identifier `pm-002` and skill name `Risk`. -/
def skillPm002 : JVal :=
  .obj (.cons "id" (.str "pm-002")
    (.cons "skillName" (.str "Risk")
      (.cons "type" (.str "RichSkillDescriptor") .nil)))

/-- Fixture: a valid skill record with identifier `pm-010` and skill name `Risk`. -/
def skillPm010 : JVal :=
  .obj (.cons "id" (.str "pm-010")
    (.cons "skillName" (.str "Risk")
      (.cons "type" (.str "RichSkillDescriptor") .nil)))

/-- Fixture: two record files in one enumeration order. -/
def sampleTree₁ : FSTree :=
  .cons (.file "b.json" skillPm010) (.cons (.file "a.json" skillPm002) .nil)

/-- Fixture: the same two record files, enumerated the other way round. -/
def sampleTree₂ : FSTree :=
  .cons (.file "a.json" skillPm002) (.cons (.file "b.json" skillPm010) .nil)

/-- Fixture: two record files whose names differ in letter case. -/
def caseTree : FSTree :=
  .cons (.file "a.json" .null) (.cons (.file "B.json" .null) .nil)

/-- Fixture: metadata fields that already contain a `skills` key with a further
field after it (still valid for `validateMeta`). -/
def metaWithSkills : JObj :=
  .cons "@context" (.str "https://schema.org/")
    (.cons "id" (.str "https://example.org/collections/pm")
      (.cons "type" (.str "Collection")
        (.cons "name" (.str "Project Management")
          (.cons "description" (.str "sample collection")
            (.cons "author" (.str "Western Governors University")
              (.cons "skills" (.str "stale value")
                (.cons "zz" (.str "after the record field") .nil)))))))

/-- Fixture: a record missing its required `id` key. -/
def skillNoId : JVal := .obj (.cons "type" (.str "RichSkillDescriptor") .nil)

/-- Fixture: a records directory holding only the invalid record. -/
def badTree : FSTree := .cons (.file "bad.json" skillNoId) .nil

/-- Fixture: a world whose sources compile and whose artifact store is empty. -/
def goodWorld : World :=
  { metaJson := some sampleMeta, tree := some sampleTree₁, artifactFS := fun _ => none }

/-- Fixture: a world holding the invalid record. -/
def badWorld : World :=
  { metaJson := some sampleMeta, tree := some badTree, artifactFS := fun _ => none }

/-- Fixture: the artifact text `goodWorld` compiles to. -/
def theText : String :=
  match compile "collection.meta.json" (some sampleMeta) "skills" (some sampleTree₁) "id" with
  | .ok t => t
  | .error _ => ""

/-- Fixture: `goodWorld` with its artifact already holding the compiled text. -/
def syncedWorld : World :=
  { metaJson := some sampleMeta, tree := some sampleTree₁,
    artifactFS := fun p => if p = "skills-collection.json" then some theText else none }

/-- Fixture: a small value whose rendering shows the two-space indentation. -/
def sampleSmall : JVal :=
  .obj (.cons "a" (.str "x") (.cons "b" (.arr (.cons (.str "y") .nil)) .nil))

/-- Fixture: a record valid in every field but `isMemberOf`. -/
def mismatchFields : JObj :=
  .cons "id" (.str "pm-001")
    (.cons "type" (.str "RichSkillDescriptor")
      (.cons "isMemberOf" (.str "OTHER") .nil))

/-- Fixture: the same record with `isMemberOf` equal to the collection identity. -/
def matchingFields : JObj :=
  .cons "id" (.str "pm-001")
    (.cons "type" (.str "RichSkillDescriptor")
      (.cons "isMemberOf" (.str "COLL") .nil))

/-- Fixture: a record whose `type` is present but empty, with a valid `@type`. -/
def falsyTypeOk : JObj :=
  .cons "id" (.str "pm-001")
    (.cons "type" (.str "")
      (.cons "@type" (.str "RichSkillDescriptor") .nil))

/-- Fixture: a record whose `type` is present but empty, with no `@type` at all. -/
def falsyTypeBad : JObj :=
  .cons "id" (.str "pm-001") (.cons "type" (.str "") .nil)

/-! Helper lemmas: the comparator laws of the modelled localeCompare, the
record and path orders, uniqueness of a sorted permutation with distinct
paths, enumeration-order invariance of the scanner, and the extraction
lemmas that peel the compiler's error monad. -/

theorem ordering_then_swap (o₁ o₂ : Ordering) : (o₁.then o₂).swap = o₁.swap.then o₂.swap := by
  cases o₁ <;> cases o₂ <;> rfl

theorem ordering_then_eq_iff (o₁ o₂ : Ordering) :
    o₁.then o₂ = .eq ↔ o₁ = .eq ∧ o₂ = .eq := by
  cases o₁ <;> cases o₂ <;> simp [Ordering.then]

theorem natCmp_eq_iff (a b : Nat) : natCmp a b = .eq ↔ a = b := by
  unfold natCmp
  split <;> rename_i h₁
  · simp; omega
  · split <;> rename_i h₂
    · simp; omega
    · simp; omega

theorem natCmp_swap (a b : Nat) : (natCmp a b).swap = natCmp b a := by
  unfold natCmp
  split <;> rename_i h₁
  · have h₂ : ¬ b < a := by omega
    have h₃ : b < a ∨ ¬ b < a := by omega
    simp [h₂, h₁, Ordering.swap]
  · split <;> rename_i h₂
    · simp [h₂, Ordering.swap]
    · have h₃ : ¬ b < a := by omega
      simp [h₃, h₁, Ordering.swap]

theorem natCmp_le_trans {a b c : Nat} (h₁ : natCmp a b ≠ .gt) (h₂ : natCmp b c ≠ .gt) :
    natCmp a c ≠ .gt := by
  unfold natCmp at *
  split at h₁ <;> split at h₂ <;> split <;> simp_all <;> omega

theorem listCmp_eq_iff : ∀ l₁ l₂ : List Nat, listCmp natCmp l₁ l₂ = .eq ↔ l₁ = l₂
  | [], [] => by simp [listCmp]
  | [], _ :: _ => by simp [listCmp]
  | _ :: _, [] => by simp [listCmp]
  | a :: as, b :: bs => by
    simp only [listCmp]
    cases h : natCmp a b with
    | eq =>
      have hab : a = b := (natCmp_eq_iff a b).mp h
      simp [hab, listCmp_eq_iff as bs]
    | lt =>
      have hne : ¬ a = b := fun hc => by
        rw [hc, (natCmp_eq_iff b b).mpr rfl] at h
        exact Ordering.noConfusion h
      simp [hne]
    | gt =>
      have hne : ¬ a = b := fun hc => by
        rw [hc, (natCmp_eq_iff b b).mpr rfl] at h
        exact Ordering.noConfusion h
      simp [hne]

theorem listCmp_swap : ∀ l₁ l₂ : List Nat, (listCmp natCmp l₁ l₂).swap = listCmp natCmp l₂ l₁
  | [], [] => rfl
  | [], _ :: _ => rfl
  | _ :: _, [] => rfl
  | a :: as, b :: bs => by
    simp only [listCmp]
    cases h : natCmp a b with
    | eq =>
      have h' : natCmp b a = .eq := by rw [← natCmp_swap, h]; rfl
      simp [h', listCmp_swap as bs]
    | lt =>
      have h' : natCmp b a = .gt := by rw [← natCmp_swap, h]; rfl
      simp [h', Ordering.swap]
    | gt =>
      have h' : natCmp b a = .lt := by rw [← natCmp_swap, h]; rfl
      simp [h', Ordering.swap]

theorem listCmp_le_trans :
    ∀ l₁ l₂ l₃ : List Nat, listCmp natCmp l₁ l₂ ≠ .gt → listCmp natCmp l₂ l₃ ≠ .gt →
      listCmp natCmp l₁ l₃ ≠ .gt := by
  intro l₁
  induction l₁ with
  | nil =>
    intro l₂ l₃ _ _
    cases l₃ <;> simp [listCmp]
  | cons a as ih =>
    intro l₂ l₃ h₁ h₂
    cases l₂ with
    | nil => simp [listCmp] at h₁
    | cons b bs =>
      cases l₃ with
      | nil => simp [listCmp] at h₂
      | cons c cs =>
        simp only [listCmp] at h₁ h₂ ⊢
        cases hab : natCmp a b with
        | gt => rw [hab] at h₁; exact absurd rfl h₁
        | eq =>
          obtain rfl : a = b := (natCmp_eq_iff a b).mp hab
          rw [hab] at h₁
          cases hac : natCmp a c with
          | gt => rw [hac] at h₂; exact absurd rfl h₂
          | lt => simp
          | eq => rw [hac] at h₂; exact ih bs cs h₁ h₂
        | lt =>
          rw [hab] at h₁
          cases hbc : natCmp b c with
          | gt => rw [hbc] at h₂; exact absurd rfl h₂
          | eq =>
            obtain rfl : b = c := (natCmp_eq_iff b c).mp hbc
            rw [hab]; simp
          | lt =>
            have hac : natCmp a c ≠ .gt := @natCmp_le_trans a b c (by simp [hab]) (by simp [hbc])
            cases hac' : natCmp a c with
            | lt => simp
            | gt => exact absurd hac' hac
            | eq =>
              obtain rfl : a = c := (natCmp_eq_iff a c).mp hac'
              have hgt : natCmp b a = .gt := by rw [← natCmp_swap a b, hab]; rfl
              rw [hgt] at hbc
              exact absurd hbc (by simp)

theorem charToNat_inj {c d : Char} (h : c.toNat = d.toNat) : c = d := by
  have hc := Char.ofNat_toNat c
  rw [h, Char.ofNat_toNat d] at hc
  exact hc.symm

theorem charKey_inj {c d : Char} (hp : primaryVal c = primaryVal d)
    (hf : caseVal c = caseVal d) : c = d := by
  unfold primaryVal caseVal at *
  by_cases u₁ : isAsciiUpper c <;> by_cases u₂ : isAsciiUpper d <;>
    simp [u₁, u₂] at hp hf ⊢ <;> exact charToNat_inj (by omega)

theorem charList_key_inj :
    ∀ l₁ l₂ : List Char, l₁.map primaryVal = l₂.map primaryVal →
      l₁.map caseVal = l₂.map caseVal → l₁ = l₂
  | [], [], _, _ => rfl
  | [], _ :: _, hp, _ => by simp at hp
  | _ :: _, [], hp, _ => by simp at hp
  | a :: as, b :: bs, hp, hf => by
    simp only [List.map_cons, List.cons.injEq] at hp hf
    exact List.cons_eq_cons.mpr
      ⟨charKey_inj hp.1 hf.1, charList_key_inj as bs hp.2 hf.2⟩

theorem localeCompare_eq_iff (a b : String) : localeCompare a b = .eq ↔ a = b := by
  unfold localeCompare
  rw [ordering_then_eq_iff]
  constructor
  · rintro ⟨h₁, h₂⟩
    have hp := (listCmp_eq_iff _ _).mp h₁
    have hf := (listCmp_eq_iff _ _).mp h₂
    simp only [primaryKey, caseKey] at hp hf
    obtain ⟨da⟩ := a
    obtain ⟨db⟩ := b
    simp only [String.data] at hp hf
    exact congrArg String.mk (charList_key_inj da db hp hf)
  · rintro rfl
    exact ⟨(listCmp_eq_iff _ _).mpr rfl, (listCmp_eq_iff _ _).mpr rfl⟩

theorem localeCompare_swap (a b : String) :
    (localeCompare a b).swap = localeCompare b a := by
  unfold localeCompare
  rw [ordering_then_swap, listCmp_swap, listCmp_swap]

theorem localeCompare_refl (a : String) : localeCompare a a = .eq :=
  (localeCompare_eq_iff a a).mpr rfl

theorem localeCompare_le_trans {a b c : String}
    (h₁ : localeCompare a b ≠ .gt) (h₂ : localeCompare b c ≠ .gt) :
    localeCompare a c ≠ .gt := by
  unfold localeCompare at *
  cases hab : listCmp natCmp (primaryKey a) (primaryKey b) with
  | gt => rw [hab] at h₁; exact absurd rfl h₁
  | eq =>
    have hpe : primaryKey a = primaryKey b := (listCmp_eq_iff _ _).mp hab
    rw [hab] at h₁
    simp only [Ordering.then] at h₁
    cases hbc : listCmp natCmp (primaryKey b) (primaryKey c) with
    | gt => rw [hbc] at h₂; exact absurd rfl h₂
    | eq =>
      have hce : listCmp natCmp (primaryKey a) (primaryKey c) = .eq := by
        rw [hpe, hbc]
      rw [hbc] at h₂
      simp only [Ordering.then] at h₂
      rw [hce]
      simp only [Ordering.then]
      exact listCmp_le_trans _ (caseKey b) _ h₁ h₂
    | lt =>
      rw [hpe, hbc]
      simp [Ordering.then]
  | lt =>
    cases hbc : listCmp natCmp (primaryKey b) (primaryKey c) with
    | gt => rw [hbc] at h₂; exact absurd rfl h₂
    | eq =>
      have hpe : primaryKey b = primaryKey c := (listCmp_eq_iff _ _).mp hbc
      rw [← hpe, hab]
      simp [Ordering.then]
    | lt =>
      have hac : listCmp natCmp (primaryKey a) (primaryKey c) ≠ .gt :=
        listCmp_le_trans _ (primaryKey b) _ (by simp [hab]) (by simp [hbc])
      cases hac' : listCmp natCmp (primaryKey a) (primaryKey c) with
      | lt => simp [Ordering.then]
      | gt => exact absurd hac' hac
      | eq =>
        have hpe : primaryKey a = primaryKey c := (listCmp_eq_iff _ _).mp hac'
        have hgt : listCmp natCmp (primaryKey b) (primaryKey c) = .gt := by
          rw [← hpe, ← listCmp_swap, hab]; rfl
        rw [hgt] at hbc
        exact absurd hbc (by simp)

theorem localeCompare_le_total (a b : String) :
    localeCompare a b ≠ .gt ∨ localeCompare b a ≠ .gt := by
  cases h : localeCompare a b with
  | lt => exact Or.inl (by simp [h])
  | eq => exact Or.inl (by simp [h])
  | gt =>
    have h' : localeCompare b a = .lt := by rw [← localeCompare_swap, h]; rfl
    exact Or.inr (by simp [h'])

theorem localeCompare_antisymm {a b : String}
    (h₁ : localeCompare a b ≠ .gt) (h₂ : localeCompare b a ≠ .gt) : a = b := by
  cases h : localeCompare a b with
  | eq => exact (localeCompare_eq_iff a b).mp h
  | gt => exact absurd h (by simpa using h₁)
  | lt =>
    have h' : localeCompare b a = .gt := by rw [← localeCompare_swap, h]; rfl
    exact absurd h' (by simpa using h₂)

theorem cmpSkill_then (sortBy : String) (a b : JVal) :
    cmpSkill sortBy a b
      = (localeCompare (skillKey sortBy a) (skillKey sortBy b)).then
          (localeCompare (idKey a) (idKey b)) := by
  unfold cmpSkill
  by_cases h : skillKey sortBy a = skillKey sortBy b
  · rw [h]
    simp [localeCompare_refl, Ordering.then]
  · simp only [h, if_true, ite_not, if_neg]
    cases hk : localeCompare (skillKey sortBy a) (skillKey sortBy b) with
    | eq => exact absurd ((localeCompare_eq_iff _ _).mp hk) h
    | lt => simp [h, Ordering.then]
    | gt => simp [h, Ordering.then]

theorem cmpSkill_swap (sortBy : String) (a b : JVal) :
    (cmpSkill sortBy a b).swap = cmpSkill sortBy b a := by
  rw [cmpSkill_then, cmpSkill_then, ordering_then_swap, localeCompare_swap, localeCompare_swap]

theorem skillLe_trans {sortBy : String} {a b c : JVal}
    (h₁ : skillLe sortBy a b) (h₂ : skillLe sortBy b c) : skillLe sortBy a c := by
  unfold skillLe at *
  rw [cmpSkill_then] at h₁ h₂ ⊢
  cases hab : localeCompare (skillKey sortBy a) (skillKey sortBy b) with
  | gt => rw [hab] at h₁; exact absurd rfl h₁
  | eq =>
    have hke : skillKey sortBy a = skillKey sortBy b := (localeCompare_eq_iff _ _).mp hab
    rw [hab] at h₁
    simp only [Ordering.then] at h₁
    cases hbc : localeCompare (skillKey sortBy b) (skillKey sortBy c) with
    | gt => rw [hbc] at h₂; exact absurd rfl h₂
    | eq =>
      have hce : localeCompare (skillKey sortBy a) (skillKey sortBy c) = .eq := by
        rw [hke, hbc]
      rw [hbc] at h₂
      simp only [Ordering.then] at h₂
      rw [hce]
      simp only [Ordering.then]
      exact @localeCompare_le_trans (idKey a) (idKey b) (idKey c) h₁ h₂
    | lt =>
      rw [hke, hbc]
      simp [Ordering.then]
  | lt =>
    cases hbc : localeCompare (skillKey sortBy b) (skillKey sortBy c) with
    | gt => rw [hbc] at h₂; exact absurd rfl h₂
    | eq =>
      have hke : skillKey sortBy b = skillKey sortBy c := (localeCompare_eq_iff _ _).mp hbc
      rw [← hke, hab]
      simp [Ordering.then]
    | lt =>
      have hac : localeCompare (skillKey sortBy a) (skillKey sortBy c) ≠ .gt :=
        @localeCompare_le_trans _ (skillKey sortBy b) _ (by simp [hab]) (by simp [hbc])
      cases hac' : localeCompare (skillKey sortBy a) (skillKey sortBy c) with
      | lt => simp [Ordering.then]
      | gt => exact absurd hac' hac
      | eq =>
        have hke : skillKey sortBy a = skillKey sortBy c := (localeCompare_eq_iff _ _).mp hac'
        have hgt : localeCompare (skillKey sortBy b) (skillKey sortBy c) = .gt := by
          rw [← hke, ← localeCompare_swap, hab]; rfl
        rw [hgt] at hbc
        exact absurd hbc (by simp)

theorem skillLe_total (sortBy : String) (a b : JVal) :
    skillLe sortBy a b ∨ skillLe sortBy b a := by
  unfold skillLe
  cases h : cmpSkill sortBy a b with
  | lt => exact Or.inl (by simp)
  | eq => exact Or.inl (by simp)
  | gt =>
    have h' : cmpSkill sortBy b a = .lt := by rw [← cmpSkill_swap, h]; rfl
    exact Or.inr (by simp [h'])

theorem pathLe_trans {a b c : String × JVal} (h₁ : pathLe a b) (h₂ : pathLe b c) :
    pathLe a c :=
  @localeCompare_le_trans a.1 b.1 c.1 h₁ h₂

theorem pathLe_total (a b : String × JVal) : pathLe a b ∨ pathLe b a :=
  localeCompare_le_total a.1 b.1

theorem pathLe_antisymm_fst {a b : String × JVal} (h₁ : pathLe a b) (h₂ : pathLe b a) :
    a.1 = b.1 :=
  localeCompare_antisymm h₁ h₂

theorem pairs_sorted_unique :
    ∀ {l₁ l₂ : List (String × JVal)}, l₁.Perm l₂ →
      l₁.Pairwise pathLe → l₂.Pairwise pathLe → (l₁.map Prod.fst).Nodup → l₁ = l₂ := by
  intro l₁
  induction l₁ with
  | nil =>
    intro l₂ hp _ _ _
    exact (hp.symm.eq_nil).symm
  | cons a t ih =>
    intro l₂ hp h₁ h₂ hnd
    cases l₂ with
    | nil => exact hp.eq_nil
    | cons b t₂ =>
      obtain ⟨ha₁, ht₁⟩ := List.pairwise_cons.mp h₁
      obtain ⟨hb₂, ht₂⟩ := List.pairwise_cons.mp h₂
      rw [List.map_cons] at hnd
      obtain ⟨hnda, hndt⟩ := List.nodup_cons.mp hnd
      by_cases hab : a = b
      · subst hab
        exact congrArg (a :: ·) (ih hp.cons_inv ht₁ ht₂ hndt)
      · have hamem : a ∈ t₂ := by
          have hm : a ∈ b :: t₂ := hp.mem_iff.mp (List.mem_cons_self a t)
          rcases List.mem_cons.mp hm with h | h
          · exact absurd h hab
          · exact h
        have hbmem : b ∈ t := by
          have hm : b ∈ a :: t := hp.symm.mem_iff.mp (List.mem_cons_self b t₂)
          rcases List.mem_cons.mp hm with h | h
          · exact absurd h.symm hab
          · exact h
        have hfst : a.1 = b.1 := pathLe_antisymm_fst (ha₁ b hbmem) (hb₂ a hamem)
        exact absurd (by rw [hfst]; exact List.mem_map_of_mem Prod.fst hbmem) hnda

theorem walkFiles_treePerm {t₁ t₂ : FSTree} (h : TreePerm t₁ t₂) :
    ∀ current, (walkFiles current t₁).Perm (walkFiles current t₂) := by
  induction h with
  | nil => intro current; rfl
  | consFile n c h ih =>
    intro current
    simp only [walkFiles]
    exact (ih current).append_left (entryFiles current (.file n c))
  | consDir n hes ht ihes iht =>
    intro current
    simp only [walkFiles, entryFiles]
    exact (ihes (pathJoin current n)).append (iht current)
  | swap e₁ e₂ t =>
    intro current
    simp only [walkFiles]
    rw [← List.append_assoc, ← List.append_assoc]
    exact List.perm_append_comm.append_right (walkFiles current t)
  | trans h₁ h₂ ih₁ ih₂ =>
    intro current
    exact (ih₁ current).trans (ih₂ current)

theorem listJsonFiles_treePerm {t₁ t₂ : FSTree} (h : TreePerm t₁ t₂) (dir : String)
    (hnd : ((walkFiles dir t₁).map Prod.fst).Nodup) :
    listJsonFiles dir (some t₁) = listJsonFiles dir (some t₂) := by
  haveI : IsTrans (String × JVal) pathLe := ⟨fun _ _ _ => pathLe_trans⟩
  haveI : IsTotal (String × JVal) pathLe := ⟨pathLe_total⟩
  have hw := walkFiles_treePerm h dir
  have hs₁ := List.sorted_insertionSort pathLe (walkFiles dir t₁)
  have hs₂ := List.sorted_insertionSort pathLe (walkFiles dir t₂)
  have hperm : (List.insertionSort pathLe (walkFiles dir t₁)).Perm
      (List.insertionSort pathLe (walkFiles dir t₂)) :=
    ((List.perm_insertionSort pathLe (walkFiles dir t₁)).trans hw).trans
      (List.perm_insertionSort pathLe (walkFiles dir t₂)).symm
  have hnd' : ((List.insertionSort pathLe (walkFiles dir t₁)).map Prod.fst).Nodup :=
    (((List.perm_insertionSort pathLe (walkFiles dir t₁)).map Prod.fst).nodup_iff).mpr hnd
  have heq : List.insertionSort pathLe (walkFiles dir t₁)
      = List.insertionSort pathLe (walkFiles dir t₂) :=
    pairs_sorted_unique hperm hs₁ hs₂ hnd'
  simp only [listJsonFiles, heq]

theorem compileRecords_ok_validate {cid ca : JVal} :
    ∀ {l : List (String × JVal)} {out : List JVal},
      compileRecords cid ca l = .ok out →
      ∀ p d, (p, d) ∈ l → validateSkill d p cid = .ok () := by
  intro l
  induction l with
  | nil => intro out _ p d hmem; exact absurd hmem (List.not_mem_nil _)
  | cons hd tl ih =>
    intro out h p d hmem
    obtain ⟨fp, data⟩ := hd
    simp only [compileRecords, bind, Except.bind] at h
    cases hv : validateSkill data fp cid with
    | error e => rw [hv] at h; exact Except.noConfusion h
    | ok u =>
      cases u
      rw [hv] at h
      rcases List.mem_cons.mp hmem with heq | htl
      · rw [show p = fp from congrArg Prod.fst heq, show d = data from congrArg Prod.snd heq]
        exact hv
      · cases hr : compileRecords cid ca tl with
        | error e => rw [hr] at h; exact Except.noConfusion h
        | ok tail => exact ih hr p d htl

theorem except_bindOk {ε α β : Type} {x : Except ε α} {f : α → Except ε β} {b : β}
    (h : x >>= f = .ok b) : ∃ a, x = .ok a ∧ f a = .ok b := by
  cases x with
  | error e =>
    have hred : (Except.error e : Except ε α) >>= f = Except.error e := rfl
    rw [hred] at h
    exact Except.noConfusion h
  | ok a =>
    have hred : (Except.ok a : Except ε α) >>= f = f a := rfl
    rw [hred] at h
    exact ⟨a, rfl, h⟩

theorem compile_ok_validate {metaPath : String} {mj : Option JVal} {skillsDir : String}
    {es : FSTree} {sortBy text : String}
    (h : compile metaPath mj skillsDir (some es) sortBy = .ok text) :
    ∀ p d, (p, d) ∈ walkFiles skillsDir es → validateSkill d p (metaIdOf mj) = .ok () := by
  intro p d hmem
  simp only [compile] at h
  obtain ⟨meta, hmeta, h⟩ := except_bindOk h
  obtain ⟨u, hvm, h⟩ := except_bindOk h
  obtain ⟨files, hlf, h⟩ := except_bindOk h
  obtain ⟨skills, hcr, h⟩ := except_bindOk h
  obtain rfl : mj = some meta := by
    cases mj with
    | none => exact Except.noConfusion hmeta
    | some m =>
      simp only [readJson] at hmeta
      injection hmeta with hm
      rw [hm]
  have hfiles : files = (walkFiles skillsDir es).insertionSort pathLe := by
    simp only [listJsonFiles] at hlf
    by_cases hemp : ((walkFiles skillsDir es).insertionSort pathLe).isEmpty
    · rw [if_pos hemp] at hlf; exact Except.noConfusion hlf
    · rw [if_neg hemp] at hlf
      injection hlf with hlf'
      exact hlf'.symm
  have hmem' : (p, d) ∈ files := by
    rw [hfiles]
    exact ((List.perm_insertionSort pathLe _).mem_iff).mpr hmem
  exact compileRecords_ok_validate hcr p d hmem'

theorem mainWrite_error_of_invalid (w : World) (metaPath skillsDir outPath sortBy : String)
    (es : FSTree) (p : String) (d : JVal)
    (htree : w.tree = some es)
    (hmem : (p, d) ∈ walkFiles skillsDir es)
    (hbad : ∀ u, validateSkill d p (metaIdOf w.metaJson) ≠ .ok u) :
    (mainWrite w metaPath skillsDir outPath sortBy).1 = w ∧
    ∃ e, (mainWrite w metaPath skillsDir outPath sortBy).2 = some e := by
  cases hc : compile metaPath w.metaJson skillsDir w.tree sortBy with
  | error e => exact ⟨by simp [mainWrite, hc], e, by simp [mainWrite, hc]⟩
  | ok text =>
    rw [htree] at hc
    exact absurd (compile_ok_validate hc p d hmem) (hbad ())

theorem mainWrite_writes_only_validated (w : World) (metaPath skillsDir outPath sortBy : String)
    (hch : (mainWrite w metaPath skillsDir outPath sortBy).1.artifactFS ≠ w.artifactFS) :
    ∃ text, compile metaPath w.metaJson skillsDir w.tree sortBy = .ok text ∧
      (mainWrite w metaPath skillsDir outPath sortBy).1.artifactFS
        = writeText w.artifactFS outPath text ∧
      (∀ (es : FSTree) (p : String) (d : JVal), w.tree = some es →
        (p, d) ∈ walkFiles skillsDir es →
        validateSkill d p (metaIdOf w.metaJson) = .ok ()) := by
  cases hc : compile metaPath w.metaJson skillsDir w.tree sortBy with
  | error e => exact absurd (by simp [mainWrite, hc]) hch
  | ok text =>
    refine ⟨text, rfl, by simp [mainWrite, hc], ?_⟩
    intro es p d htree hmem
    rw [htree] at hc
    exact compile_ok_validate hc p d hmem

theorem mainCheck_behavior (w : World) (metaPath skillsDir outPath sortBy text : String)
    (hc : compile metaPath w.metaJson skillsDir w.tree sortBy = .ok text) :
    (readTextOrEmpty w.artifactFS outPath = text →
      mainCheck w metaPath skillsDir outPath sortBy = .ok ()) ∧
    (readTextOrEmpty w.artifactFS outPath ≠ text →
      mainCheck w metaPath skillsDir outPath sortBy = .error (.staleArtifact staleMessage)) := by
  constructor <;> intro h <;> simp [mainCheck, hc, h]

theorem sortRecords_sorted (sortBy : String) (records : List JVal) :
    (sortRecords sortBy records).Perm records ∧
    (sortRecords sortBy records).Pairwise (fun a b =>
      localeCompare (skillKey sortBy a) (skillKey sortBy b) ≠ .gt ∧
      (skillKey sortBy a = skillKey sortBy b → localeCompare (idKey a) (idKey b) ≠ .gt)) := by
  haveI : IsTrans JVal (skillLe sortBy) := ⟨fun _ _ _ => skillLe_trans⟩
  haveI : IsTotal JVal (skillLe sortBy) := ⟨skillLe_total sortBy⟩
  refine ⟨List.perm_insertionSort _ _, ?_⟩
  have hs := List.sorted_insertionSort (skillLe sortBy) records
  refine hs.imp ?_
  intro a b hle
  unfold skillLe at hle
  rw [cmpSkill_then] at hle
  constructor
  · intro hk
    rw [hk] at hle
    exact absurd rfl hle
  · intro hkeq
    have heq : localeCompare (skillKey sortBy a) (skillKey sortBy b) = .eq := by
      rw [hkeq]; exact localeCompare_refl _
    rw [heq] at hle
    exact hle

theorem getProp_append : ∀ (fs o : JObj) (k : String),
    getProp (JObj.append fs o) k
      = match getProp fs k with
        | some v => some v
        | none => getProp o k
  | .nil, _, _ => rfl
  | .cons k' v' t, o, k => by
    simp only [JObj.append, getProp]
    by_cases h : k' = k
    · simp [h]
    · simp [h, getProp_append t o k]

theorem keys_append : ∀ (fs o : JObj), (JObj.append fs o).keys = fs.keys ++ o.keys
  | .nil, _ => rfl
  | .cons k' v' t, o => by simp [JObj.append, JObj.keys, keys_append t o]

theorem keys_setField : ∀ (fs : JObj) (k : String) (v : JVal),
    (setField fs k v).keys = fs.keys
  | .nil, _, _ => rfl
  | .cons k' v' t, k, v => by
    simp only [setField]
    by_cases h : k' = k
    · simp [h, JObj.keys, keys_setField t k v]
    · simp [h, JObj.keys, keys_setField t k v]

theorem hasKey_iff : ∀ (fs : JObj) (k : String), hasKey fs k = true ↔ k ∈ fs.keys
  | .nil, k => by simp [hasKey, getProp, JObj.keys]
  | .cons k' v' t, k => by
    simp only [hasKey, getProp, JObj.keys]
    by_cases h : k' = k
    · simp [h]
    · have ih := hasKey_iff t k
      simp only [hasKey] at ih
      rw [if_neg h]
      constructor
      · intro hs
        exact List.mem_cons.mpr (Or.inr (ih.mp hs))
      · intro hm
        rcases List.mem_cons.mp hm with he | hm'
        · exact absurd he.symm h
        · exact ih.mpr hm'

theorem getProp_setField_self : ∀ (fs : JObj) (k : String) (v : JVal),
    hasKey fs k = true → getProp (setField fs k v) k = some v
  | .nil, k, v => by simp [hasKey, getProp]
  | .cons k' v' t, k, v => by
    intro h
    simp only [setField, getProp]
    by_cases hk : k' = k
    · simp [getProp, hk]
    · simp only [hk, if_neg hk, if_false, getProp]
      apply getProp_setField_self t k v
      simp only [hasKey, getProp, hk, if_neg hk, if_false] at h
      exact h

theorem spreadSet_keys (fs : JObj) (k : String) (v : JVal) :
    (spreadSet fs k v).keys = if k ∈ fs.keys then fs.keys else fs.keys ++ [k] := by
  unfold spreadSet
  by_cases h : hasKey fs k = true
  · rw [if_pos h, if_pos ((hasKey_iff fs k).mp h), keys_setField]
  · have h' : ¬ k ∈ fs.keys := fun hm => h ((hasKey_iff fs k).mpr hm)
    rw [if_neg (by simpa using h), if_neg h', keys_append]
    rfl

theorem getProp_spreadSet (fs : JObj) (k : String) (v : JVal) :
    getProp (spreadSet fs k v) k = some v := by
  unfold spreadSet
  by_cases h : hasKey fs k = true
  · rw [if_pos h]
    exact getProp_setField_self fs k v h
  · rw [if_neg (by simpa using h), getProp_append]
    have h' : getProp fs k = none := by
      simp only [hasKey] at h
      exact Option.not_isSome_iff_eq_none.mp (by simpa using h)
    rw [h']
    simp [getProp]

theorem render_obj_getLast (fs : JObj) (d : Nat) :
    (render (.obj fs) d).data.getLast? = some '\x7d' := by
  cases fs with
  | nil => rfl
  | cons k v t =>
    have hr : render (.obj (.cons k v t)) d
        = ("\x7b\n" ++ renderObjItems (.cons k v t) (d + 1) ++ "\n" ++ sp d) ++ "\x7d" := rfl
    rw [hr, String.data_append]
    exact List.getLast?_concat _

theorem stableStringify_getLast (v : JVal) :
    (stableStringify v).data.getLast? = some '\n' := by
  rw [stableStringify, String.data_append]
  exact List.getLast?_concat _

theorem normalizeSkill_preserves (fields : JObj) (cid ca : JVal) (k : String) (v : JVal)
    (h : getProp fields k = some v) :
    getProp (normalizeSkill fields cid ca) k = some v := by
  unfold normalizeSkill
  have hs₁ : ∀ o : JObj, getProp (JObj.append fields o) k = some v := fun o => by
    rw [getProp_append, h]
  by_cases h₁ : (getProp fields "isMemberOf").isSome = true
  · rw [if_pos h₁]
    by_cases h₂ : (getProp fields "author").isSome = true
    · rw [if_pos h₂]; exact h
    · rw [if_neg h₂]; exact hs₁ _
  · rw [if_neg h₁]
    by_cases h₂ : (getProp (JObj.append fields (.cons "isMemberOf" cid .nil)) "author").isSome = true
    · rw [if_pos h₂]; exact hs₁ _
    · rw [if_neg h₂]
      rw [getProp_append, hs₁ _]

theorem getProp_author_after_membership (fields : JObj) (cid : JVal) :
    getProp (JObj.append fields (.cons "isMemberOf" cid .nil)) "author"
      = getProp fields "author" := by
  rw [getProp_append]
  cases h : getProp fields "author" with
  | some v => rfl
  | none => simp [getProp]

theorem normalizeSkill_membership_default (fields : JObj) (cid ca : JVal)
    (h : getProp fields "isMemberOf" = none) :
    getProp (normalizeSkill fields cid ca) "isMemberOf" = some cid := by
  unfold normalizeSkill
  have h₁ : ¬ (getProp fields "isMemberOf").isSome = true := by simp [h]
  rw [if_neg h₁]
  have hget : getProp (JObj.append fields (.cons "isMemberOf" cid .nil)) "isMemberOf"
      = some cid := by
    rw [getProp_append, h]
    simp [getProp]
  by_cases h₂ : (getProp (JObj.append fields (.cons "isMemberOf" cid .nil)) "author").isSome = true
  · rw [if_pos h₂]; exact hget
  · rw [if_neg h₂]
    rw [getProp_append, hget]

theorem normalizeSkill_author_default (fields : JObj) (cid ca : JVal)
    (h : getProp fields "author" = none) :
    getProp (normalizeSkill fields cid ca) "author" = some ca := by
  unfold normalizeSkill
  by_cases h₁ : (getProp fields "isMemberOf").isSome = true
  · rw [if_pos h₁]
    have h₂ : ¬ (getProp fields "author").isSome = true := by simp [h]
    rw [if_neg h₂, getProp_append, h]
    simp [getProp]
  · rw [if_neg h₁]
    have h' : getProp (JObj.append fields (.cons "isMemberOf" cid .nil)) "author" = none := by
      rw [getProp_author_after_membership, h]
    have h₂ : ¬ (getProp (JObj.append fields (.cons "isMemberOf" cid .nil)) "author").isSome
        = true := by simp [h']
    rw [if_neg h₂, getProp_append, h']
    simp [getProp]

theorem normalizeSkill_keys (fields : JObj) (cid ca : JVal) :
    (normalizeSkill fields cid ca).keys
      = fields.keys
        ++ (if (getProp fields "isMemberOf").isSome = true then [] else ["isMemberOf"])
        ++ (if (getProp fields "author").isSome = true then [] else ["author"]) := by
  unfold normalizeSkill
  by_cases h₁ : (getProp fields "isMemberOf").isSome = true
  · rw [if_pos h₁, if_pos h₁]
    by_cases h₂ : (getProp fields "author").isSome = true
    · rw [if_pos h₂, if_pos h₂]
      simp
    · rw [if_neg h₂, if_neg h₂, keys_append]
      simp [JObj.keys]
  · rw [if_neg h₁, if_neg h₁]
    have hauth : getProp (JObj.append fields (.cons "isMemberOf" cid .nil)) "author"
        = getProp fields "author" := getProp_author_after_membership fields cid
    by_cases h₂ : (getProp fields "author").isSome = true
    · rw [if_pos (by rw [hauth]; exact h₂), if_pos h₂, keys_append]
      simp [JObj.keys]
    · rw [if_neg (by rw [hauth]; exact h₂), if_neg h₂, keys_append, keys_append]
      simp [JObj.keys]

theorem validateSkill_membership (fields : JObj) (skillPath : String) (collectionId m : JVal)
    (hid : (getProp fields "id").isSome = true)
    (htype : jsOr (getProp fields "type") (getProp fields "@type")
      = some (.str "RichSkillDescriptor"))
    (hmem : getProp fields "isMemberOf" = some m) :
    (jsStrictEq m collectionId = false →
      validateSkill (.obj fields) skillPath collectionId
        = .error (.membershipMismatch skillPath m collectionId)) ∧
    (jsStrictEq m collectionId = true →
      validateSkill (.obj fields) skillPath collectionId = .ok ()) := by
  obtain ⟨idv, hidv⟩ := Option.isSome_iff_exists.mp hid
  have hsent : jsStrictEq (.str "RichSkillDescriptor") (.str "RichSkillDescriptor") = true := by
    decide
  have htr : jsTruthy (.str "RichSkillDescriptor") = true := by decide
  constructor <;> intro hstrict <;>
    simp [validateSkill, hidv, htype, hmem, hstrict, hsent, htr]

theorem validateSkill_truthyType (fields : JObj) (skillPath : String) (collectionId tv : JVal)
    (hid : (getProp fields "id").isSome = true)
    (htype : getProp fields "type" = some tv)
    (hfalsy : jsTruthy tv = false)
    (hmem : getProp fields "isMemberOf" = none) :
    (getProp fields "@type" = some (.str "RichSkillDescriptor") →
      validateSkill (.obj fields) skillPath collectionId = .ok ()) ∧
    ((∀ w, getProp fields "@type" = some w → jsTruthy w = false) →
      validateSkill (.obj fields) skillPath collectionId
        = .error (.missingKeys skillPath "type or @type")) := by
  obtain ⟨idv, hidv⟩ := Option.isSome_iff_exists.mp hid
  have hsent : jsStrictEq (.str "RichSkillDescriptor") (.str "RichSkillDescriptor") = true := by
    decide
  have htr : jsTruthy (.str "RichSkillDescriptor") = true := by decide
  constructor
  · intro hat
    simp [validateSkill, hidv, jsOr, htype, hfalsy, hat, hsent, htr, hmem]
  · intro hat
    cases h : getProp fields "@type" with
    | none => simp [validateSkill, hidv, jsOr, htype, hfalsy, h]
    | some w =>
      have hw : jsTruthy w = false := hat w h
      simp [validateSkill, hidv, jsOr, htype, hfalsy, h, hw]

theorem parseLoop_no_mode : ∀ (args : Args) (toks : List String),
    args.mode = none → (∀ t ∈ toks, t ≠ "--write" ∧ t ≠ "--check") →
    ∀ a, parseLoop args toks ≠ .ok a := by
  intro args toks
  induction args, toks using parseLoop.induct <;>
    intro hmode htoks a <;>
    try simp_all [parseLoop]
  all_goals (
    rename_i args tok rest h1 h2 h3 h4 h5
    obtain ⟨⟨hw, hc⟩, _⟩ := htoks
    unfold parseLoop
    rw [if_neg h1, if_neg h2, if_neg h3, if_neg h4, if_neg hw, if_neg hc]
    first
    | (rw [if_pos h5]; simp)
    | (rw [if_neg (not_or.mpr h5)]; simp))

mutual
theorem mem_entryFiles : ∀ (current : String) (e : FSEntry) (p : String),
    (∃ c, (p, c) ∈ entryFiles current e) ↔ HasEntryJson current e p
  | current, .file n c, p => by
    simp only [entryFiles]
    by_cases h : isJsonName n = true
    · rw [if_pos h]
      constructor
      · rintro ⟨c', hc'⟩
        have heq := List.mem_singleton.mp hc'
        have hp : p = pathJoin current n := congrArg Prod.fst heq
        rw [hp]
        exact HasEntryJson.file h
      · intro he
        cases he with
        | file hjson => exact ⟨c, List.mem_singleton.mpr rfl⟩
    · rw [if_neg h]
      constructor
      · rintro ⟨c', hc'⟩
        exact absurd hc' (List.not_mem_nil _)
      · intro he
        cases he with
        | file hjson => exact absurd hjson h
  | current, .dir n sub, p => by
    simp only [entryFiles]
    constructor
    · intro hx
      exact HasEntryJson.dir ((mem_walkFiles (pathJoin current n) sub p).mp hx)
    · intro he
      cases he with
      | dir hj => exact (mem_walkFiles (pathJoin current n) sub p).mpr hj
theorem mem_walkFiles : ∀ (current : String) (t : FSTree) (p : String),
    (∃ c, (p, c) ∈ walkFiles current t) ↔ HasJsonFile current t p
  | current, .nil, p => by
    simp only [walkFiles]
    constructor
    · rintro ⟨c, hc⟩
      exact absurd hc (List.not_mem_nil _)
    · intro hj
      cases hj
  | current, .cons e t, p => by
    simp only [walkFiles]
    constructor
    · rintro ⟨c, hc⟩
      rcases List.mem_append.mp hc with h | h
      · exact HasJsonFile.head ((mem_entryFiles current e p).mp ⟨c, h⟩)
      · exact HasJsonFile.tail ((mem_walkFiles current t p).mp ⟨c, h⟩)
    · intro hj
      cases hj with
      | head he =>
        obtain ⟨c, hc⟩ := (mem_entryFiles current e p).mpr he
        exact ⟨c, List.mem_append.mpr (Or.inl hc)⟩
      | tail ht =>
        obtain ⟨c, hc⟩ := (mem_walkFiles current t p).mpr ht
        exact ⟨c, List.mem_append.mpr (Or.inr hc)⟩
end

theorem listJsonFiles_ok_shape (dirPath : String) (t : FSTree) (l : List (String × JVal))
    (h : listJsonFiles dirPath (some t) = .ok l) :
    l = (walkFiles dirPath t).insertionSort pathLe ∧ l ≠ [] := by
  simp only [listJsonFiles] at h
  by_cases hemp : ((walkFiles dirPath t).insertionSort pathLe).isEmpty
  · rw [if_pos hemp] at h
    exact Except.noConfusion h
  · rw [if_neg hemp] at h
    injection h with h'
    subst h'
    refine ⟨rfl, ?_⟩
    intro hnil
    rw [hnil] at hemp
    exact hemp rfl

theorem listJsonFiles_contract (dirPath : String) (t : FSTree) (l : List (String × JVal))
    (h : listJsonFiles dirPath (some t) = .ok l) :
    (∀ p, (∃ c, (p, c) ∈ l) ↔ HasJsonFile dirPath t p) ∧ l.Pairwise pathLe ∧ l ≠ [] := by
  haveI : IsTrans (String × JVal) pathLe := ⟨fun _ _ _ => pathLe_trans⟩
  haveI : IsTotal (String × JVal) pathLe := ⟨pathLe_total⟩
  obtain ⟨rfl, hne⟩ := listJsonFiles_ok_shape dirPath t l h
  refine ⟨?_, List.sorted_insertionSort pathLe _, hne⟩
  intro p
  rw [← mem_walkFiles dirPath t p]
  constructor
  · rintro ⟨c, hc⟩
    exact ⟨c, (List.perm_insertionSort pathLe _).mem_iff.mp hc⟩
  · rintro ⟨c, hc⟩
    exact ⟨c, (List.perm_insertionSort pathLe _).mem_iff.mpr hc⟩

/-- C1: for a fixed metadata value and a fixed set of record files, compiling
twice yields the same artifact text, and compiling against the same tree
enumerated in any other order (with distinct file paths) yields byte-identical
artifact text: the scanner's sort makes the result independent of filesystem
enumeration order. -/
theorem compile_determinism (metaPath : String) (metaJson : Option JVal)
    (skillsDir sortBy : String) (t₁ t₂ : FSTree)
    (hperm : TreePerm t₁ t₂)
    (hnd : ((walkFiles skillsDir t₁).map Prod.fst).Nodup) :
    compile metaPath metaJson skillsDir (some t₁) sortBy
      = compile metaPath metaJson skillsDir (some t₁) sortBy ∧
    compile metaPath metaJson skillsDir (some t₁) sortBy
      = compile metaPath metaJson skillsDir (some t₂) sortBy := by
  refine ⟨rfl, ?_⟩
  have hl := listJsonFiles_treePerm hperm skillsDir hnd
  simp only [compile, hl]

/-- Witness for C1: the two sample trees enumerate the same two record files in
opposite orders and compile to the same text. -/
theorem compile_determinism_witness :
    compile "collection.meta.json" (some sampleMeta) "skills" (some sampleTree₁) "id"
      = compile "collection.meta.json" (some sampleMeta) "skills" (some sampleTree₂) "id" :=
  (compile_determinism "collection.meta.json" (some sampleMeta) "skills" "id"
    sampleTree₁ sampleTree₂ (TreePerm.swap _ _ _) (by decide)).2

/-- C2: the record sort of `compile` leaves the record multiset unchanged and
orders it by the case-insensitive string comparison on the configured field
(absent fields projecting to the empty string), records with equal keys
appearing in ascending case-insensitive order of their `id`; in particular two
records with equal `skillName` and ids `pm-010` and `pm-002` come out with
`pm-002` first from either input order. -/
theorem compile_sort_contract (sortBy : String) (records : List JVal) :
    (sortRecords sortBy records).Perm records ∧
    (sortRecords sortBy records).Pairwise (fun a b =>
      localeCompare (skillKey sortBy a) (skillKey sortBy b) ≠ .gt ∧
      (skillKey sortBy a = skillKey sortBy b →
        localeCompare (idKey a) (idKey b) ≠ .gt)) ∧
    sortRecords "skillName" [skillPm010, skillPm002] = [skillPm002, skillPm010] ∧
    sortRecords "skillName" [skillPm002, skillPm010] = [skillPm002, skillPm010] :=
  ⟨(sortRecords_sorted sortBy records).1, (sortRecords_sorted sortBy records).2, rfl, rfl⟩

/-- C3: in `--write` mode, a record that fails validation aborts the run with
an error and the world (in particular the artifact store) is left untouched;
and conversely the artifact store changes only when compilation succeeded,
which entails that every scanned record validated. -/
theorem write_failfast_contract :
    (∀ (w : World) (metaPath skillsDir outPath sortBy : String) (es : FSTree)
        (p : String) (d : JVal),
      w.tree = some es → (p, d) ∈ walkFiles skillsDir es →
      (∀ u, validateSkill d p (metaIdOf w.metaJson) ≠ .ok u) →
      (mainWrite w metaPath skillsDir outPath sortBy).1 = w ∧
      (∃ e, (mainWrite w metaPath skillsDir outPath sortBy).2 = some e)) ∧
    (∀ (w : World) (metaPath skillsDir outPath sortBy : String),
      (mainWrite w metaPath skillsDir outPath sortBy).1.artifactFS ≠ w.artifactFS →
      ∃ text, compile metaPath w.metaJson skillsDir w.tree sortBy = .ok text ∧
        (mainWrite w metaPath skillsDir outPath sortBy).1.artifactFS
          = writeText w.artifactFS outPath text ∧
        (∀ (es : FSTree) (p : String) (d : JVal), w.tree = some es →
          (p, d) ∈ walkFiles skillsDir es →
          validateSkill d p (metaIdOf w.metaJson) = .ok ())) :=
  ⟨mainWrite_error_of_invalid, mainWrite_writes_only_validated⟩

/-- Witness for C3: writing the world whose only record lacks `id` leaves the
world unchanged. -/
theorem write_failfast_witness :
    (mainWrite badWorld "collection.meta.json" "skills" "skills-collection.json" "id").1
      = badWorld :=
  (write_failfast_contract.1 badWorld "collection.meta.json" "skills"
    "skills-collection.json" "id" badTree "skills/bad.json" skillNoId rfl
    (List.Mem.head _)
    (fun _u h => Except.noConfusion
      ((rfl :
        validateSkill skillNoId "skills/bad.json" (metaIdOf badWorld.metaJson)
          = .error (.missingKeys "skills/bad.json" "id")).symm.trans h))).1

set_option maxRecDepth 40000 in
/-- Counterexample for C4: in `--check` mode with the artifact at the custom
path `custom.json`, the stale artifact is reported with the fixed message,
which does not contain that artifact path: the error does not name the
configured artifact path. -/
theorem check_stale_message_constant :
    mainCheck goodWorld "collection.meta.json" "skills" "custom.json" "id"
      = .error (.staleArtifact staleMessage) ∧
    ¬ ("custom.json".data <:+: staleMessage.data) := by
  constructor
  · rfl
  · decide

/-- C4 as amended: `Check` reads a missing artifact as empty content (never an
error by itself), compares the existing content byte for byte with the freshly
compiled bytes, succeeds when they are equal, and when they differ fails with
a `StaleArtifact` error carrying the fixed regeneration message (naming the
default artifact file name, not the configured path). -/
theorem check_contract :
    (∀ (fs : String → Option String) (filePath : String),
      fs filePath = none → readTextOrEmpty fs filePath = "") ∧
    (∀ (w : World) (metaPath skillsDir outPath sortBy text : String),
      compile metaPath w.metaJson skillsDir w.tree sortBy = .ok text →
      (readTextOrEmpty w.artifactFS outPath = text →
        mainCheck w metaPath skillsDir outPath sortBy = .ok ()) ∧
      (readTextOrEmpty w.artifactFS outPath ≠ text →
        mainCheck w metaPath skillsDir outPath sortBy
          = .error (.staleArtifact staleMessage))) :=
  ⟨fun _ _ h => by simp [readTextOrEmpty, h],
   fun w mp sd op sb text hc => mainCheck_behavior w mp sd op sb text hc⟩

/-- Witness for C4: a world whose artifact already holds the compiled text
passes the check. -/
theorem check_contract_witness :
    mainCheck syncedWorld "collection.meta.json" "skills" "skills-collection.json" "id"
      = .ok () :=
  (check_contract.2 syncedWorld "collection.meta.json" "skills" "skills-collection.json"
    "id" theText rfl).1 rfl

/-- Counterexample for C5: a metadata value that itself carries a `skills`
field passes metadata validation, yet the compiled collection object does not
have the record array appended last — the spread overwrites the existing
`skills` position in place and the later `zz` field stays behind it. -/
theorem compiled_record_field_not_last :
    validateMeta (.obj metaWithSkills) = .ok () ∧
    (assembleCompiled metaWithSkills []).keys ≠ metaWithSkills.keys ++ ["skills"] := by
  constructor
  · rfl
  · decide

/-- C5 as amended: the compiled object keeps the metadata fields first in
insertion order and appends the record-array field last exactly when the
metadata does not already contain a field of that name (otherwise it is
overwritten in place); the serializer writes the field value there, renders
with the fixed two-space indentation, never sorts keys, and terminates the
text with exactly one trailing line break; it is a pure function. -/
theorem serializer_contract :
    (∀ (fields : JObj) (k : String) (v : JVal),
      (spreadSet fields k v).keys
        = if k ∈ fields.keys then fields.keys else fields.keys ++ [k]) ∧
    (∀ (fields : JObj) (k : String) (v : JVal),
      getProp (spreadSet fields k v) k = some v) ∧
    (∀ fields : JObj,
      stableStringify (.obj fields) = render (.obj fields) 0 ++ "\n" ∧
      (render (.obj fields) 0).data.getLast? = some '\x7d' ∧
      (stableStringify (.obj fields)).data.getLast? = some '\n') ∧
    render sampleSmall 0 = "\x7b\n  \"a\": \"x\",\n  \"b\": [\n    \"y\"\n  ]\n\x7d" ∧
    (∀ v₁ v₂ : JVal, v₁ = v₂ → stableStringify v₁ = stableStringify v₂) :=
  ⟨spreadSet_keys, getProp_spreadSet,
   fun fields => ⟨rfl, render_obj_getLast fields 0, stableStringify_getLast _⟩,
   rfl, fun _ _ h => congrArg stableStringify h⟩

/-- C6: a Variant A record whose `isMemberOf` is present and not strictly equal
to the collection identity fails validation with `MembershipMismatch` even
though `id` is present and the type tag is valid, and the same record passes
when `isMemberOf` is strictly equal to the collection identity. -/
theorem membership_mismatch_fatal (fields : JObj) (skillPath : String)
    (collectionId m : JVal)
    (hid : (getProp fields "id").isSome = true)
    (htype : jsOr (getProp fields "type") (getProp fields "@type")
      = some (.str "RichSkillDescriptor"))
    (hmem : getProp fields "isMemberOf" = some m) :
    (jsStrictEq m collectionId = false →
      validateSkill (.obj fields) skillPath collectionId
        = .error (.membershipMismatch skillPath m collectionId)) ∧
    (jsStrictEq m collectionId = true →
      validateSkill (.obj fields) skillPath collectionId = .ok ()) := by
  obtain ⟨idv, hidv⟩ := Option.isSome_iff_exists.mp hid
  have hsent : jsStrictEq (.str "RichSkillDescriptor") (.str "RichSkillDescriptor")
      = true := by decide
  have htr : jsTruthy (.str "RichSkillDescriptor") = true := by decide
  constructor <;> intro hstrict <;>
    simp [validateSkill, hidv, htype, hmem, hstrict, hsent, htr]

/-- Witness for C6: a mismatching record fails with the mismatch error, the
matching record passes. -/
theorem membership_mismatch_fatal_witness :
    validateSkill (.obj mismatchFields) "skills/a.json" (.str "COLL")
      = .error (.membershipMismatch "skills/a.json" (.str "OTHER") (.str "COLL")) ∧
    validateSkill (.obj matchingFields) "skills/a.json" (.str "COLL") = .ok () :=
  ⟨(membership_mismatch_fatal mismatchFields "skills/a.json" (.str "COLL") (.str "OTHER")
      rfl rfl rfl).1 rfl,
   (membership_mismatch_fatal matchingFields "skills/a.json" (.str "COLL") (.str "COLL")
      rfl rfl rfl).2 rfl⟩

/-- C7: normalization preserves every present field, fills `isMemberOf` with
the collection identity exactly when absent, fills `author` with the
collection default author exactly when absent (each appended, in that order,
at the end of the field list), and the Variant B normalizer passes records
through unchanged. -/
theorem normalizer_defaults_contract :
    (∀ (fields : JObj) (cid ca : JVal) (k : String) (v : JVal),
      getProp fields k = some v → getProp (normalizeSkill fields cid ca) k = some v) ∧
    (∀ (fields : JObj) (cid ca : JVal),
      getProp fields "isMemberOf" = none →
        getProp (normalizeSkill fields cid ca) "isMemberOf" = some cid) ∧
    (∀ (fields : JObj) (cid ca : JVal),
      getProp fields "author" = none →
        getProp (normalizeSkill fields cid ca) "author" = some ca) ∧
    (∀ (fields : JObj) (cid ca : JVal),
      (normalizeSkill fields cid ca).keys
        = fields.keys
          ++ (if (getProp fields "isMemberOf").isSome = true then [] else ["isMemberOf"])
          ++ (if (getProp fields "author").isSome = true then [] else ["author"])) ∧
    (∀ fields : JObj, normalizeCompetency (.obj fields) = .obj fields) :=
  ⟨normalizeSkill_preserves, normalizeSkill_membership_default,
   normalizeSkill_author_default, normalizeSkill_keys, fun _ => rfl⟩

/-- Witness for C7: a record carrying only its `id` receives both defaults. -/
theorem normalizer_defaults_witness :
    getProp (normalizeSkill (.cons "id" (.str "pm-001") .nil) (.str "COLL") (.str "WGU"))
      "isMemberOf" = some (.str "COLL") ∧
    getProp (normalizeSkill (.cons "id" (.str "pm-001") .nil) (.str "COLL") (.str "WGU"))
      "author" = some (.str "WGU") :=
  ⟨normalizer_defaults_contract.2.1 _ _ _ rfl,
   normalizer_defaults_contract.2.2.1 _ _ _ rfl⟩

/-- Counterexample for C8: an invocation passing both `--write` and `--check`
does not fail with `InvalidArgument` — it is accepted, the last flag winning
(here `--check`). -/
theorem parseArgs_both_flags_accepted :
    parseArgs ["node", "tools/compile-collection.mjs", "--write", "--check"]
      = .ok { defaultArgs with mode := some "check" } := rfl

/-- C8 as amended: an invocation passing neither `--write` nor `--check` never
parses successfully (reaching the end of the arguments yields the
`InvalidArgument` mode error), while an invocation passing both flags is
accepted with the last flag determining the mode. -/
theorem mode_flags_contract :
    (∀ argv : List String, "--write" ∉ argv → "--check" ∉ argv →
      ∀ a : Args, parseArgs argv ≠ .ok a) ∧
    parseArgs ["node", "tools/compile-collection.mjs"]
      = .err (.invalidArgument "ERROR: Must specify exactly one of --write or --check") ∧
    parseArgs ["node", "tools/compile-collection.mjs", "--check", "--write"]
      = .ok { defaultArgs with mode := some "write" } := by
  refine ⟨?_, rfl, rfl⟩
  intro argv hw hc a
  apply parseLoop_no_mode defaultArgs (argv.drop 2) rfl
  intro t ht
  have hmem : t ∈ argv := List.drop_subset 2 argv ht
  exact ⟨fun h => hw (h ▸ hmem), fun h => hc (h ▸ hmem)⟩

/-- Witness for C8: an invocation with options but no mode flag is not
accepted. -/
theorem mode_flags_witness :
    parseArgs ["node", "tools/compile-collection.mjs", "--sort-by", "id"]
      ≠ .ok defaultArgs :=
  mode_flags_contract.1 ["node", "tools/compile-collection.mjs", "--sort-by", "id"]
    (by decide) (by decide) defaultArgs

/-- Counterexample for C9: with file names `a.json` and `B.json` the scanner
returns `skills/a.json` before `skills/B.json` (the default-collation order),
although the locale-independent lexicographic comparison orders
`skills/B.json` strictly first — so the returned sequence is not sorted by a
locale-independent lexicographic comparison. -/
theorem scanner_order_not_lexicographic :
    listJsonFiles "skills" (some caseTree)
      = .ok [("skills/a.json", .null), ("skills/B.json", .null)] ∧
    lexCompare "skills/a.json" "skills/B.json" = .gt := by
  constructor
  · rfl
  · decide

/-- C9 as amended: the scanner fails with `MissingDirectory` when the root
does not exist and with `EmptyCollection` when no file matches; on success the
returned paths are exactly the `.json`-suffixed (case-insensitively) files of
all nested subdirectories, sorted by the host collation comparison
(`localeCompare`), and the result is never empty. -/
theorem scanner_contract :
    (∀ dirPath : String, listJsonFiles dirPath none
      = .error (.missingDirectory dirPath)) ∧
    (∀ (dirPath : String) (t : FSTree), walkFiles dirPath t = [] →
      listJsonFiles dirPath (some t) = .error (.emptyCollection dirPath)) ∧
    (∀ (dirPath : String) (t : FSTree) (l : List (String × JVal)),
      listJsonFiles dirPath (some t) = .ok l →
      (∀ p, (∃ c, (p, c) ∈ l) ↔ HasJsonFile dirPath t p) ∧
      l.Pairwise pathLe ∧ l ≠ []) := by
  refine ⟨fun _ => rfl, ?_, listJsonFiles_contract⟩
  intro dirPath t h
  simp [listJsonFiles, h, List.insertionSort]

/-- Witness for C9: the scan of the sample tree is sorted by the modelled
localeCompare order. -/
theorem scanner_contract_witness :
    ([("skills/a.json", JVal.null), ("skills/B.json", JVal.null)]).Pairwise pathLe :=
  (scanner_contract.2.2 "skills" caseTree
    [("skills/a.json", JVal.null), ("skills/B.json", JVal.null)] rfl).2.1

/-- C10: the Variant A type tag is read by truthiness, not key presence: a
record whose `type` is present but falsy while `@type` holds the sentinel
passes validation, and a record whose `type` is present but falsy with no
truthy `@type` is rejected as missing the type keys — never as a type-tag
mismatch reporting the falsy value. -/
theorem type_tag_truthiness (fields : JObj) (skillPath : String) (collectionId tv : JVal)
    (hid : (getProp fields "id").isSome = true)
    (htype : getProp fields "type" = some tv)
    (hfalsy : jsTruthy tv = false)
    (hmem : getProp fields "isMemberOf" = none) :
    (getProp fields "@type" = some (.str "RichSkillDescriptor") →
      validateSkill (.obj fields) skillPath collectionId = .ok ()) ∧
    ((∀ w, getProp fields "@type" = some w → jsTruthy w = false) →
      validateSkill (.obj fields) skillPath collectionId
        = .error (.missingKeys skillPath "type or @type")) := by
  obtain ⟨idv, hidv⟩ := Option.isSome_iff_exists.mp hid
  have hsent : jsStrictEq (.str "RichSkillDescriptor") (.str "RichSkillDescriptor")
      = true := by decide
  have htr : jsTruthy (.str "RichSkillDescriptor") = true := by decide
  constructor
  · intro hat
    simp [validateSkill, hidv, jsOr, htype, hfalsy, hat, hsent, htr, hmem]
  · intro hat
    cases h : getProp fields "@type" with
    | none => simp [validateSkill, hidv, jsOr, htype, hfalsy, h]
    | some w =>
      have hw : jsTruthy w = false := hat w h
      simp [validateSkill, hidv, jsOr, htype, hfalsy, h, hw]

/-- Witness for C10: the record with empty `type` and sentinel `@type` passes;
the record with empty `type` and no `@type` fails as missing the type keys. -/
theorem type_tag_truthiness_witness :
    validateSkill (.obj falsyTypeOk) "skills/f.json" (.str "COLL") = .ok () ∧
    validateSkill (.obj falsyTypeBad) "skills/f.json" (.str "COLL")
      = .error (.missingKeys "skills/f.json" "type or @type") :=
  ⟨(type_tag_truthiness falsyTypeOk "skills/f.json" (.str "COLL") (.str "")
      rfl rfl rfl rfl).1 rfl,
   (type_tag_truthiness falsyTypeBad "skills/f.json" (.str "COLL") (.str "")
      rfl rfl rfl rfl).2 (fun _w h => Option.noConfusion h)⟩
